import Mathlib

set_option autoImplicit false

/-!
Shallow embedding of the AutoTransfer bot (`src/index.js`) in Lean 4.

Modelling conventions:
* JavaScript numbers are modelled as exact rationals (`ℚ`).  The source only
  performs subtraction, comparison against a reserve and 3-decimal formatting,
  so exact rationals track the intended decimal arithmetic; binary floating
  point rounding is out of scope of the claims and is not modelled.
* `Number(x)` coercion of a possibly-missing string field is modelled by
  `jsNumber : Option String → JsNum`, where `JsNum.nan` stands for JavaScript
  `NaN` (every ordered comparison and equality test with `NaN` is false) and
  `JsNum.inf` for the infinities produced by the `Infinity` literal.
* Remote calls (balance fetches, broadcasts) are opaque in the source; they are
  modelled as explicit result streams (`ℕ → Except JsError _`) indexed by the
  invocation counter, and the stateful loops are given as executable functions
  producing event traces.
* `async`/`await` sequencing in the source is purely sequential per worker, so
  it is embedded as ordinary sequential code; sleeps become trace events.
-/

namespace AutoTransfer

/-! ### Configuration constants (index.js lines 11-25) -/

def MAIN_LOOP_DELAY : ℕ := 3 * 60 * 1000

def COOLDOWN_MS : ℕ := 5 * 60 * 1000

def CUSTOM_JSON_LIMIT : ℕ := 5

def RETRY_MAX_ATTEMPTS : ℕ := 3

def RETRY_BASE_DELAY_MS : ℕ := 1000

def RETRY_MAX_DELAY_MS : ℕ := 15000

/-! ### JavaScript number coercion (`Number(...)` on token record fields)

The source reads `Number(t.balance)`, `Number(t.stake)`,
`Number(t.pendingUnstake)` where the fields are string-encoded decimals coming
from the Hive Engine API (or are absent, i.e. `undefined`).  We embed the
`ToNumber` string grammar of ECMAScript restricted to what `Number(string)`
accepts: optional whitespace trimming, the empty string mapping to `0`,
signed decimal literals with optional fraction and exponent, the `Infinity`
literal, and unsigned hex/octal/binary integer literals.  Anything else is
`NaN`.  (Float64 rounding of the parsed value is not modelled; see the header.)
-/

inductive JsNum where
  | nan
  | inf (neg : Bool)
  | num (q : ℚ)
  deriving Repr, DecidableEq

def natOfDigits (ds : List Char) : ℕ :=
  ds.foldl (fun acc c => 10 * acc + (c.toNat - 48)) 0

def hexDigitVal (c : Char) : Option ℕ :=
  if c.isDigit then some (c.toNat - 48)
  else if 97 ≤ c.toNat ∧ c.toNat ≤ 102 then some (c.toNat - 87)
  else if 65 ≤ c.toNat ∧ c.toNat ≤ 70 then some (c.toNat - 55)
  else none

def natOfBaseDigits (base : ℕ) (ds : List Char) : Option ℕ :=
  ds.foldl
    (fun acc c =>
      match acc, hexDigitVal c with
      | some a, some v => if v < base then some (base * a + v) else none
      | _, _ => none)
    (some 0)

/-- Non-decimal integer literal body (after the `0x` / `0o` / `0b` prefix). -/
def baseLit (base : ℕ) (ds : List Char) : JsNum :=
  if ds.isEmpty then JsNum.nan
  else
    match natOfBaseDigits base ds with
    | some n => JsNum.num (n : ℚ)
    | none => JsNum.nan

def applyExp (m : ℚ) (neg : Bool) (e : ℕ) : ℚ :=
  if neg then m / 10 ^ e else m * 10 ^ e

/-- Optional exponent suffix of a decimal literal; the digits must run to the
end of the input. -/
def parseSignedExp (m : ℚ) : List Char → Option ℚ
  | '+' :: rest =>
    if !rest.isEmpty && rest.all Char.isDigit then some (applyExp m false (natOfDigits rest))
    else none
  | '-' :: rest =>
    if !rest.isEmpty && rest.all Char.isDigit then some (applyExp m true (natOfDigits rest))
    else none
  | rest =>
    if !rest.isEmpty && rest.all Char.isDigit then some (applyExp m false (natOfDigits rest))
    else none

def parseExpPart (m : ℚ) : List Char → Option ℚ
  | [] => some m
  | 'e' :: rest => parseSignedExp m rest
  | 'E' :: rest => parseSignedExp m rest
  | _ => none

/-- Unsigned decimal literal: `digits [. digits] [exp]` or `. digits [exp]`. -/
def parseUnsignedDec (cs : List Char) : Option ℚ :=
  let intDs := cs.takeWhile Char.isDigit
  let r1 := cs.dropWhile Char.isDigit
  match r1 with
  | '.' :: r2 =>
    let fracDs := r2.takeWhile Char.isDigit
    let r3 := r2.dropWhile Char.isDigit
    if intDs.isEmpty && fracDs.isEmpty then none
    else parseExpPart ((natOfDigits intDs : ℚ) + (natOfDigits fracDs : ℚ) / 10 ^ fracDs.length) r3
  | _ =>
    if intDs.isEmpty then none
    else parseExpPart ((natOfDigits intDs : ℚ)) r1

def infinityChars : List Char := ['I', 'n', 'f', 'i', 'n', 'i', 't', 'y']

/-- Whitespace trimming at both ends (the trim step of `ToNumber`). -/
def jsTrim (cs : List Char) : List Char :=
  ((cs.dropWhile Char.isWhitespace).reverse.dropWhile Char.isWhitespace).reverse

/-- Signed decimal literal or the `Infinity` literal. -/
def decSigned (cs : List Char) : JsNum :=
  let signBody : Bool × List Char :=
    match cs with
    | '+' :: r => (false, r)
    | '-' :: r => (true, r)
    | r => (false, r)
  let neg := signBody.1
  let body := signBody.2
  if body = infinityChars then JsNum.inf neg
  else
    match parseUnsignedDec body with
    | some q => JsNum.num (if neg then -q else q)
    | none => JsNum.nan

/-- ECMAScript `ToNumber` on a string (the `Number(string)` coercion). -/
def jsStringToNum (s : String) : JsNum :=
  match jsTrim s.data with
  | [] => JsNum.num 0
  | '0' :: b :: rest =>
    if b = 'x' ∨ b = 'X' then baseLit 16 rest
    else if b = 'o' ∨ b = 'O' then baseLit 8 rest
    else if b = 'b' ∨ b = 'B' then baseLit 2 rest
    else decSigned ('0' :: b :: rest)
  | cs => decSigned cs

/-- `Number(field)` where the field may be `undefined` (a missing JSON key);
`Number(undefined)` is `NaN`. -/
def jsNumber : Option String → JsNum
  | none => JsNum.nan
  | some s => jsStringToNum s

/-- JavaScript `x > 0`; false when `x` is `NaN`. -/
def jsGtZero : JsNum → Bool
  | JsNum.nan => false
  | JsNum.inf neg => !neg
  | JsNum.num q => decide (0 < q)

/-- JavaScript `x === 0`; false when `x` is `NaN` or infinite. -/
def jsEqZero : JsNum → Bool
  | JsNum.num q => decide (q = 0)
  | _ => false

/-! ### Error model and `isRetryableError` (index.js lines 46-61)

A thrown JavaScript error is modelled by the three observations the classifier
makes of it: `err.response.status`, `err.code` and `err.message`, each possibly
absent. -/

structure JsError where
  status : Option ℕ := none
  code : Option String := none
  message : Option String := none
  deriving Repr, DecidableEq

def RETRYABLE_CODES : List String := ["ECONNRESET", "ETIMEDOUT", "EAI_AGAIN", "ECONNREFUSED"]

/-- JavaScript `hay.includes(needle)`: some contiguous run of `hay` equals
`needle`. -/
def containsSubstr (needle hay : List Char) : Bool :=
  (List.range (hay.length + 1)).any (fun i => needle.isPrefixOf (hay.drop i))

/-- index.js `isRetryableError`: HTTP status 500 or above, one of four
transport error codes, or one of four substrings of the lowercased message. -/
def isRetryableError (e : JsError) : Bool :=
  (match e.status with
   | some s => decide (500 ≤ s)
   | none => false)
  || (match e.code with
      | some c => (c != "") && RETRYABLE_CODES.contains c
      | none => false)
  || (let msg := (e.message.getD "").data.map Char.toLower
      containsSubstr ("status code 5").data msg
      || containsSubstr ("service unavailable").data msg
      || containsSubstr ("socket hang up").data msg
      || containsSubstr ("network error").data msg)

/-! ### Amount formatting (`amount.toFixed(3)` in `transfer`, index.js line 246)

`Number.prototype.toFixed(3)` picks the integer `n` with `n / 1000` closest to
the value, preferring the larger `n` on ties, then prints `n` with exactly
three digits after the decimal point. -/

def pad3 (k : ℕ) : String :=
  if k < 10 then "00" ++ toString k
  else if k < 100 then "0" ++ toString k
  else toString k

def jsToFixed3 (x : ℚ) : String :=
  let n : ℤ := Int.floor (x * 1000 + 1 / 2)
  let a : ℕ := n.natAbs
  (if n < 0 then "-" else "") ++ toString (a / 1000) ++ "." ++ pad3 (a % 1000)

/-! ### Native transfer operation (index.js `transfer`, lines 241-251)

The client and signing key are opaque collaborators; the embedded `transfer`
returns the broadcast operation object it submits. -/

structure NativeTransferOp where
  fromAcct : String
  toAcct : Option String
  amount : String
  memo : String
  deriving Repr, DecidableEq

def transfer (fromAcct : String) (toAcct : Option String) (amount : ℚ) (symbol : String) :
    NativeTransferOp :=
  ⟨fromAcct, toAcct, jsToFixed3 amount ++ " " ++ symbol, ""⟩

/-- One cycle of the native part of `hiveWorker` (index.js lines 260-286):
the list of transfer broadcasts it performs given the fetched balances.
The reserves are the env-loaded `HIVE_RESERVE` / `HBD_RESERVE`, the
destination is `process.env.DEST_HIVE_NATIVE` (possibly unset). -/
def hiveWorkerCycleOps (name : String) (dest : Option String)
    (hiveReserve hbdReserve hive hbd : ℚ) : List NativeTransferOp :=
  let hiveSend := hive - hiveReserve
  let hbdSend := hbd - hbdReserve
  (if 0 < hiveSend then [transfer name dest hiveSend "HIVE"] else [])
    ++ (if 0 < hbdSend then [transfer name dest hbdSend "HBD"] else [])

/-! ### Token sweep planner (`buildEngineQueue`, index.js lines 147-176) -/

structure EngineToken where
  symbol : String
  balance : Option String
  stake : Option String
  pendingUnstake : Option String
  deriving Repr, DecidableEq

inductive EngineOp where
  | unstake (symbol : String) (quantity : Option String)
  | transfer (symbol : String) (toAcct : Option String) (quantity : Option String) (memo : String)
  deriving Repr, DecidableEq

/-- The operations one token record contributes to the queue: the body of the
`for (const t of tokens)` loop in `buildEngineQueue`.  Quantities are the raw
string fields of the record, exactly as the source pushes `t.stake` and
`t.balance`. -/
def engineRecordOps (dest : Option String) (t : EngineToken) : List EngineOp :=
  let liquid := jsNumber t.balance
  let stake := jsNumber t.stake
  let pending := jsNumber t.pendingUnstake
  (if jsGtZero stake && jsEqZero pending then [EngineOp.unstake t.symbol t.stake] else [])
    ++ (if jsGtZero liquid then [EngineOp.transfer t.symbol dest t.balance ""] else [])

/-- index.js `buildEngineQueue`: the queue is accumulated by pushing each
record contribution in record order. -/
def buildEngineQueue (tokens : List EngineToken) (dest : Option String) : List EngineOp :=
  tokens.foldl (fun queue t => queue ++ engineRecordOps dest t) []

def isUnstakeOp : EngineOp → Bool
  | EngineOp.unstake _ _ => true
  | _ => false

def isTransferOp : EngineOp → Bool
  | EngineOp.transfer _ _ _ _ => true
  | _ => false

def engineOpSymbol : EngineOp → String
  | EngineOp.unstake sym _ => sym
  | EngineOp.transfer sym _ _ _ => sym

/-! ### Batch dispatcher (`processEngineQueue`, index.js lines 194-204)

The broadcast calls are opaque remote calls; `bc i` is the outcome of the
i-th `engineBroadcast` invocation of one dispatch (note the source calls
`hiveClient.broadcast.json` directly, with no `retryAsync` wrapper around it).
The dispatcher is embedded as a trace-producing function: it returns the
dispatch events (one `submit` per attempted broadcast, one `cooldown` per
inter-batch sleep), the number of broadcast invocations made, and the error
that aborted the dispatch, if any. -/

inductive DispatchEvent where
  | submit (op : EngineOp)
  | cooldown
  deriving Repr, DecidableEq

/-- The inner `for (const job of slice) await engineBroadcast(...)` loop.
`k` is the broadcast invocation counter; a thrown error aborts the batch. -/
def submitBatch (bc : ℕ → Except JsError Unit) (k : ℕ) :
    List EngineOp → List DispatchEvent × ℕ × Option JsError
  | [] => ([], k, none)
  | op :: rest =>
    match bc k with
    | Except.ok _ =>
      let r := submitBatch bc (k + 1) rest
      (DispatchEvent.submit op :: r.1, r.2)
    | Except.error e => ([DispatchEvent.submit op], k + 1, some e)

/-- The `while (queue.length)` loop of `processEngineQueue`, generalised over
the batch size `N` (`CUSTOM_JSON_LIMIT` in the source).  `fuel` bounds the
number of iterations: each iteration splices off at least one operation when
`0 < N`, so `fuel = queue.length` suffices and the fuel-exhausted branch is
unreachable (the JS loop terminates for the same reason). -/
def processEngineQueueGo (bc : ℕ → Except JsError Unit) (N : ℕ) :
    ℕ → ℕ → List EngineOp → List DispatchEvent × ℕ × Option JsError
  | _, k, [] => ([], k, none)
  | 0, k, _ :: _ => ([], k, none)
  | fuel + 1, k, op :: tl =>
    let slice := (op :: tl).take N
    let rest := (op :: tl).drop N
    let b := submitBatch bc k slice
    match b.2.2 with
    | some e => (b.1, b.2.1, some e)
    | none =>
      if rest.isEmpty then (b.1, b.2.1, none)
      else
        let r := processEngineQueueGo bc N fuel b.2.1 rest
        (b.1 ++ DispatchEvent.cooldown :: r.1, r.2)

/-- Projection of a dispatch event to the operation it submitted. -/
def submittedOp : DispatchEvent → Option EngineOp
  | DispatchEvent.submit op => some op
  | DispatchEvent.cooldown => none

/-- The event trace `processEngineQueueGo` produces when every broadcast
succeeds (proved below); stated separately so the pacing properties can be
read off its structure. -/
def dispatchEvents (N : ℕ) : ℕ → List EngineOp → List DispatchEvent
  | 0, _ => []
  | _, [] => []
  | fuel + 1, op :: tl =>
    let slice := (op :: tl).take N
    let rest := (op :: tl).drop N
    slice.map DispatchEvent.submit ++
      (if rest.isEmpty then [] else DispatchEvent.cooldown :: dispatchEvents N fuel rest)

def processEngineQueueRunWith (bc : ℕ → Except JsError Unit) (N : ℕ)
    (queue : List EngineOp) : List DispatchEvent × ℕ × Option JsError :=
  processEngineQueueGo bc N queue.length 0 queue

/-- index.js `processEngineQueue` with its hard-coded batch size. -/
def processEngineQueueRun (bc : ℕ → Except JsError Unit) (queue : List EngineOp) :
    List DispatchEvent × ℕ × Option JsError :=
  processEngineQueueRunWith bc CUSTOM_JSON_LIMIT queue

/-! ### Retry executor (`retryAsync`, index.js lines 63-78)

`fn attempt` is the outcome of the wrapped call on the given (1-based)
attempt; `jit attempt` is the value of `Math.floor(Math.random() * 250)`
drawn before that retry sleep, always in `[0, 249]`.  The trace records the
final result, the backoff sleep durations, the attempt numbers at which the
`onRetry` callback fired, and the number of invocations of `fn`. -/

inductive RetryResult (α : Type) where
  | ok (v : α)
  | thrown (e : JsError)
  | undefinedReturn
  deriving Repr, DecidableEq

structure RetryTrace (α : Type) where
  result : RetryResult α
  delays : List ℕ
  retryCallbacks : List ℕ
  attempts : ℕ
  deriving Repr, DecidableEq

/-- The `for (let attempt = 1; attempt <= maxAttempts; attempt++)` loop.
`fuel` bounds the remaining iterations (the run starts it at `maxAttempts`);
if the loop exits without returning, the JS function returns `undefined`,
which only happens when `maxAttempts` is `0`. -/
def retryGo {α : Type} (fn : ℕ → Except JsError α) (jit : ℕ → ℕ) (maxAttempts : ℕ) :
    ℕ → ℕ → RetryTrace α
  | _, 0 => ⟨RetryResult.undefinedReturn, [], [], 0⟩
  | attempt, fuel + 1 =>
    match fn attempt with
    | Except.ok v => ⟨RetryResult.ok v, [], [], 1⟩
    | Except.error e =>
      if isRetryableError e = false ∨ attempt = maxAttempts then
        ⟨RetryResult.thrown e, [], [], 1⟩
      else
        let d := min RETRY_MAX_DELAY_MS (RETRY_BASE_DELAY_MS * 2 ^ (attempt - 1)) + jit attempt
        let tr := retryGo fn jit maxAttempts (attempt + 1) fuel
        ⟨tr.result, d :: tr.delays, attempt :: tr.retryCallbacks, tr.attempts + 1⟩

def retryAsyncRun {α : Type} (fn : ℕ → Except JsError α) (jit : ℕ → ℕ)
    (maxAttempts : ℕ) : RetryTrace α :=
  retryGo fn jit maxAttempts 1 maxAttempts

/-! ### Steem endpoint rotator (index.js lines 86-94)

`steemRpcIndex` and `steemClient` are module-level mutable bindings; the
state is threaded explicitly here.  The client is identified by the endpoint
URL it was constructed with. -/

structure SteemRpcState where
  steemRpcIndex : ℕ
  steemClientUrl : Option String
  deriving Repr, DecidableEq

/-- Initial state (index.js lines 86-87): index `0`, client bound to
`STEEM_RPCS[0] || process.env.STEEM_RPC`. -/
def initSteemRpcState (rpcs : List String) (envSteemRpc : Option String) : SteemRpcState :=
  ⟨0,
    match rpcs[0]? with
    | some u => some u
    | none => envSteemRpc⟩

/-- index.js `rotateSteemRpc`. -/
def rotateSteemRpc (rpcs : List String) (s : SteemRpcState) : SteemRpcState :=
  if rpcs.length ≤ 1 then s
  else
    let i := (s.steemRpcIndex + 1) % rpcs.length
    ⟨i, rpcs[i]?⟩

/-! ### Hive Engine worker loop (`hiveEngineWorker`, index.js lines 295-327) -/

inductive WorkerEvent where
  | cycleError (e : JsError)
  | sleep (ms : ℕ)
  deriving Repr, DecidableEq

def isSleepEvent : WorkerEvent → Bool
  | WorkerEvent.sleep _ => true
  | _ => false

/-- The try-block of one `hiveEngineWorker` cycle: fetch token balances
(`fetch` is the outcome of `getEngineBalances`), build the queue, dispatch it
(`bc` is the stream of broadcast outcomes).  Any thrown error is returned. -/
def hiveEngineCycle (dest : Option String) (fetch : Except JsError (List EngineToken))
    (bc : ℕ → Except JsError Unit) : Except JsError Unit :=
  match fetch with
  | Except.error e => Except.error e
  | Except.ok tokens =>
    let queue := buildEngineQueue tokens dest
    if queue.isEmpty then Except.ok ()
    else
      match (processEngineQueueRun bc queue).2.2 with
      | some e => Except.error e
      | none => Except.ok ()

/-- One full iteration of the `while (true)` loop in `hiveEngineWorker`: the
catch-block logs the cycle error, and every iteration, failed or not, falls
through to `await delay(MAIN_LOOP_DELAY)`. -/
def hiveEngineWorkerStep (dest : Option String) (fetch : Except JsError (List EngineToken))
    (bc : ℕ → Except JsError Unit) : List WorkerEvent :=
  (match hiveEngineCycle dest fetch bc with
   | Except.error e => [WorkerEvent.cycleError e]
   | Except.ok _ => []) ++ [WorkerEvent.sleep MAIN_LOOP_DELAY]

/-- `n` iterations of the worker loop; cycle `i` sees fetch outcome `fetch i`
and broadcast outcome stream `bc i`. -/
def hiveEngineWorkerRun (dest : Option String) (fetch : ℕ → Except JsError (List EngineToken))
    (bc : ℕ → ℕ → Except JsError Unit) : ℕ → List WorkerEvent
  | 0 => []
  | n + 1 => hiveEngineWorkerRun dest fetch bc n ++ hiveEngineWorkerStep dest (fetch n) (bc n)

/-! ### Concrete fixtures used by witnesses and counterexamples -/

def beeToken : EngineToken := ⟨"BEE", some "10", some "5", some "0"⟩

def dupTokA : EngineToken := ⟨"AAA", some "10", some "0", some "0"⟩

def dupTokB : EngineToken := ⟨"AAA", some "0", some "5", some "0"⟩

def badToken : EngineToken := ⟨"BAD", none, some "xyz", some "0"⟩

def err503 : JsError := ⟨some 503, none, none⟩

def err400 : JsError := ⟨some 400, none, none⟩

def opsDozen : List EngineOp := (List.range 12).map (fun i => EngineOp.unstake (toString i) none)

def bcAllOk : ℕ → Except JsError Unit := fun _ => Except.ok ()

def bcFailFirst : ℕ → Except JsError Unit :=
  fun k => if k = 0 then Except.error err503 else Except.ok ()

def bcFailSecond : ℕ → Except JsError Unit :=
  fun k => if k = 1 then Except.error err503 else Except.ok ()

def fnFailTwice : ℕ → Except JsError ℕ :=
  fun attempt => if attempt ≤ 2 then Except.error err503 else Except.ok 42

def fnFail400 : ℕ → Except JsError ℕ := fun _ => Except.error err400

def jitZero : ℕ → ℕ := fun _ => 0

/-! ## Theorems -/

/-- The push-loop of `buildEngineQueue` concatenates the per-record
contributions in record order. -/
theorem buildEngineQueue_eq_flatMap (tokens : List EngineToken) (dest : Option String) :
    buildEngineQueue tokens dest = tokens.flatMap (engineRecordOps dest) := by
  suffices h : ∀ (l : List EngineToken) (init : List EngineOp),
      l.foldl (fun queue t => queue ++ engineRecordOps dest t) init
        = init ++ l.flatMap (engineRecordOps dest) by
    simpa using h tokens []
  intro l
  induction l with
  | nil => intro init; simp
  | cons t ts ih => intro init; simp [List.flatMap_cons, ih, List.append_assoc]

/-- C1: native-currency sweep.  For each of the two native assets, one cycle
of `hiveWorker` broadcasts no transfer when the fetched balance is at most
the configured reserve, and exactly one transfer of the surplus, formatted
with `toFixed(3)`, when the balance strictly exceeds the reserve. -/
theorem C1_native_sweep (name : String) (dest : Option String)
    (hiveReserve hbdReserve hive hbd : ℚ) :
    hiveWorkerCycleOps name dest hiveReserve hbdReserve hive hbd =
      (if hiveReserve < hive then
        [⟨name, dest, jsToFixed3 (hive - hiveReserve) ++ " " ++ "HIVE", ""⟩] else [])
      ++ (if hbdReserve < hbd then
        [⟨name, dest, jsToFixed3 (hbd - hbdReserve) ++ " " ++ "HBD", ""⟩] else []) := by
  simp only [hiveWorkerCycleOps, transfer, sub_pos]

/-- C6: a terminal (non-retryable) error on the first attempt propagates
after exactly one invocation, with no backoff sleep and no retry callback. -/
theorem C6_terminal_fast_path {α : Type} (fn : ℕ → Except JsError α) (jit : ℕ → ℕ)
    (maxAttempts : ℕ) (e : JsError) (hmax : 1 ≤ maxAttempts)
    (h1 : fn 1 = Except.error e) (hterm : isRetryableError e = false) :
    retryAsyncRun fn jit maxAttempts = ⟨RetryResult.thrown e, [], [], 1⟩ := by
  obtain ⟨m, rfl⟩ : ∃ m, maxAttempts = m + 1 := ⟨maxAttempts - 1, by omega⟩
  simp [retryAsyncRun, retryGo, h1, hterm]

theorem C6_terminal_fast_path_witness :
    retryAsyncRun fnFail400 jitZero RETRY_MAX_ATTEMPTS
      = ⟨RetryResult.thrown err400, [], [], 1⟩ :=
  C6_terminal_fast_path fnFail400 jitZero RETRY_MAX_ATTEMPTS err400 (by decide) rfl (by decide)

/-- For a list of at least two endpoints, each rotation advances the index by
one modulo the list length and rebinds the client. -/
theorem rotateSteemRpc_iterate (rpcs : List String) (h2 : 2 ≤ rpcs.length) (r : ℕ) :
    (rotateSteemRpc rpcs)^[r] ⟨0, rpcs[0]?⟩
      = ⟨r % rpcs.length, rpcs[r % rpcs.length]?⟩ := by
  induction r with
  | zero => simp [Nat.mod_eq_of_lt (show 0 < rpcs.length by omega)]
  | succ n ih =>
    rw [Function.iterate_succ_apply', ih]
    unfold rotateSteemRpc
    rw [if_neg (by omega)]
    simp [Nat.mod_add_mod]

/-- C7: starting from the initial state, after `r` rotation triggers on an
endpoint list of length `m ≥ 1` the active index is `r mod m` and the client
is bound to the endpoint at that index; on a list of length at most 1 a
rotation trigger changes neither the index nor the client.  (The source keeps
`steemRpcIndex`/`steemClient` in module-level bindings, so the threaded state
persists across cycles.) -/
theorem C7_endpoint_rotation (rpcs : List String) (envSteemRpc : Option String) (r : ℕ)
    (hm : 1 ≤ rpcs.length) :
    ((rotateSteemRpc rpcs)^[r] (initSteemRpcState rpcs envSteemRpc)).steemRpcIndex
        = r % rpcs.length
    ∧ ((rotateSteemRpc rpcs)^[r] (initSteemRpcState rpcs envSteemRpc)).steemClientUrl
        = rpcs[r % rpcs.length]?
    ∧ (∀ s : SteemRpcState, rpcs.length ≤ 1 → rotateSteemRpc rpcs s = s) := by
  have hnoop : ∀ s : SteemRpcState, rpcs.length ≤ 1 → rotateSteemRpc rpcs s = s := by
    intro s hs; unfold rotateSteemRpc; rw [if_pos hs]
  obtain ⟨u, hu⟩ : ∃ u, rpcs[0]? = some u := by
    cases rpcs with
    | nil => simp at hm
    | cons a l => exact ⟨a, by simp⟩
  have hinit : initSteemRpcState rpcs envSteemRpc = ⟨0, rpcs[0]?⟩ := by
    simp [initSteemRpcState, hu]
  rcases Nat.lt_or_ge rpcs.length 2 with hlt | hge
  · have hone : rpcs.length = 1 := by omega
    have hfix : (rotateSteemRpc rpcs)^[r] (initSteemRpcState rpcs envSteemRpc)
        = initSteemRpcState rpcs envSteemRpc :=
      Function.iterate_fixed (hnoop _ (by omega)) r
    refine ⟨?_, ?_, hnoop⟩
    · rw [hfix, hinit, hone, Nat.mod_one]
    · rw [hfix, hinit, hone, Nat.mod_one]
  · rw [hinit, rotateSteemRpc_iterate rpcs hge r]
    exact ⟨rfl, rfl, hnoop⟩

theorem C7_endpoint_rotation_witness :
    ((rotateSteemRpc ["a", "b", "c"])^[5] (initSteemRpcState ["a", "b", "c"] none)).steemRpcIndex
        = 5 % 3
    ∧ ((rotateSteemRpc ["a", "b", "c"])^[5] (initSteemRpcState ["a", "b", "c"] none)).steemClientUrl
        = ["a", "b", "c"][5 % 3]?
    ∧ (∀ s : SteemRpcState, (["a", "b", "c"] : List String).length ≤ 1 →
        rotateSteemRpc ["a", "b", "c"] s = s) :=
  C7_endpoint_rotation ["a", "b", "c"] none 5 (by decide)

/-- C8: every iteration of the `hiveEngineWorker` loop ends in the fixed
inter-cycle sleep, whether or not the cycle threw; every logged error is the
error of the cycle it was caught in; no cycle error stops the loop (all `n`
iterations happen and contribute their sleep). -/
theorem C8_cycle_isolation (dest : Option String)
    (fetch : ℕ → Except JsError (List EngineToken)) (bc : ℕ → ℕ → Except JsError Unit)
    (n : ℕ) :
    (hiveEngineWorkerRun dest fetch bc n).countP isSleepEvent = n
    ∧ (∀ ms : ℕ, WorkerEvent.sleep ms ∈ hiveEngineWorkerRun dest fetch bc n →
        ms = MAIN_LOOP_DELAY)
    ∧ (∀ e : JsError, WorkerEvent.cycleError e ∈ hiveEngineWorkerRun dest fetch bc n →
        ∃ i, i < n ∧ hiveEngineCycle dest (fetch i) (bc i) = Except.error e) := by
  induction n with
  | zero =>
    refine ⟨rfl, ?_, ?_⟩ <;> intro x hx <;> simp [hiveEngineWorkerRun] at hx
  | succ n ih =>
    obtain ⟨ih1, ih2, ih3⟩ := ih
    refine ⟨?_, ?_, ?_⟩
    · rw [hiveEngineWorkerRun, List.countP_append, ih1, hiveEngineWorkerStep]
      cases hiveEngineCycle dest (fetch n) (bc n) <;> simp [isSleepEvent]
    · intro ms hms
      rw [hiveEngineWorkerRun] at hms
      rcases List.mem_append.1 hms with h | h
      · exact ih2 ms h
      · rw [hiveEngineWorkerStep] at h
        cases hc : hiveEngineCycle dest (fetch n) (bc n) <;> rw [hc] at h <;>
          simp at h <;> exact h
    · intro e he
      rw [hiveEngineWorkerRun] at he
      rcases List.mem_append.1 he with h | h
      · obtain ⟨i, hi, hc⟩ := ih3 e h
        exact ⟨i, by omega, hc⟩
      · rw [hiveEngineWorkerStep] at h
        cases hc : hiveEngineCycle dest (fetch n) (bc n) with
        | error e0 =>
          rw [hc] at h
          simp at h
          exact ⟨n, by omega, by rw [hc, h]⟩
        | ok _ =>
          rw [hc] at h
          simp at h

theorem C8_cycle_isolation_witness :
    (hiveEngineWorkerRun (some "tw") (fun _ => Except.error err400)
        (fun _ _ => Except.ok ()) 3).countP isSleepEvent = 3 :=
  (C8_cycle_isolation (some "tw") (fun _ => Except.error err400) (fun _ _ => Except.ok ()) 3).1

/-- The unstake part of a record contribution, in closed form. -/
theorem engineRecordOps_filter_unstake (dest : Option String) (t : EngineToken) :
    (engineRecordOps dest t).filter isUnstakeOp =
      (if jsGtZero (jsNumber t.stake) && jsEqZero (jsNumber t.pendingUnstake) then
        [EngineOp.unstake t.symbol t.stake] else []) := by
  simp only [engineRecordOps, List.filter_append]
  cases jsGtZero (jsNumber t.stake) && jsEqZero (jsNumber t.pendingUnstake) <;>
    cases jsGtZero (jsNumber t.balance) <;> simp [isUnstakeOp]

/-- The transfer part of a record contribution, in closed form. -/
theorem engineRecordOps_filter_transfer (dest : Option String) (t : EngineToken) :
    (engineRecordOps dest t).filter isTransferOp =
      (if jsGtZero (jsNumber t.balance) then
        [EngineOp.transfer t.symbol dest t.balance ""] else []) := by
  simp only [engineRecordOps, List.filter_append]
  cases jsGtZero (jsNumber t.stake) && jsEqZero (jsNumber t.pendingUnstake) <;>
    cases jsGtZero (jsNumber t.balance) <;> simp [isTransferOp]

/-- The unstakes of the queue are exactly the qualifying records, in record
order, each carrying its raw `stake` field. -/
theorem buildEngineQueue_filter_unstake (tokens : List EngineToken) (dest : Option String) :
    (buildEngineQueue tokens dest).filter isUnstakeOp =
      (tokens.filter fun t =>
          jsGtZero (jsNumber t.stake) && jsEqZero (jsNumber t.pendingUnstake)).map
        (fun t => EngineOp.unstake t.symbol t.stake) := by
  rw [buildEngineQueue_eq_flatMap]
  induction tokens with
  | nil => simp
  | cons t ts ih =>
    rw [List.flatMap_cons, List.filter_append, ih, engineRecordOps_filter_unstake]
    cases h : jsGtZero (jsNumber t.stake) && jsEqZero (jsNumber t.pendingUnstake) <;>
      simp [List.filter_cons, h]

/-- The transfers of the queue are exactly the liquid records, in record
order, each carrying its raw `balance` field. -/
theorem buildEngineQueue_filter_transfer (tokens : List EngineToken) (dest : Option String) :
    (buildEngineQueue tokens dest).filter isTransferOp =
      (tokens.filter fun t => jsGtZero (jsNumber t.balance)).map
        (fun t => EngineOp.transfer t.symbol dest t.balance "") := by
  rw [buildEngineQueue_eq_flatMap]
  induction tokens with
  | nil => simp
  | cons t ts ih =>
    rw [List.flatMap_cons, List.filter_append, ih, engineRecordOps_filter_transfer]
    cases h : jsGtZero (jsNumber t.balance) <;> simp [List.filter_cons, h]

/-- Within one record contribution the unstake strictly precedes the
transfer. -/
theorem engineRecordOps_unstake_lt_transfer (dest : Option String) (t : EngineToken)
    (i j : ℕ) (sym : String) (qa toA qb : Option String) (memo : String)
    (hi : (engineRecordOps dest t)[i]? = some (EngineOp.unstake sym qa))
    (hj : (engineRecordOps dest t)[j]? = some (EngineOp.transfer sym toA qb memo)) :
    i < j := by
  simp only [engineRecordOps] at hi hj
  cases h1 : jsGtZero (jsNumber t.stake) && jsEqZero (jsNumber t.pendingUnstake) <;>
      rw [h1] at hi hj <;>
    cases h2 : jsGtZero (jsNumber t.balance) <;> rw [h2] at hi hj
  · simp at hi
  · rcases i with _ | i <;> simp at hi
  · rcases j with _ | j <;> simp at hj
  · rcases j with _ | j
    · simp at hj
    · rcases i with _ | i
      · omega
      · rcases i with _ | i <;> simp at hi

/-- Every operation a record contributes carries that record's symbol. -/
theorem engineRecordOps_symbol (dest : Option String) (t : EngineToken) (op : EngineOp)
    (h : op ∈ engineRecordOps dest t) : engineOpSymbol op = t.symbol := by
  simp only [engineRecordOps] at h
  rcases List.mem_append.1 h with h1 | h1
  · cases h2 : jsGtZero (jsNumber t.stake) && jsEqZero (jsNumber t.pendingUnstake) <;>
      rw [h2] at h1 <;> simp at h1
    subst h1
    rfl
  · cases h2 : jsGtZero (jsNumber t.balance) <;> rw [h2] at h1 <;> simp at h1
    subst h1
    rfl

/-- For pairwise-distinct record symbols, every unstake precedes every
transfer of the same symbol in the flattened queue. -/
theorem flatMap_unstake_lt_transfer (dest : Option String) :
    ∀ tokens : List EngineToken, (tokens.map EngineToken.symbol).Nodup →
      ∀ (i j : ℕ) (sym : String) (qa toA qb : Option String) (memo : String),
        (tokens.flatMap (engineRecordOps dest))[i]? = some (EngineOp.unstake sym qa) →
        (tokens.flatMap (engineRecordOps dest))[j]?
            = some (EngineOp.transfer sym toA qb memo) →
        i < j := by
  intro tokens
  induction tokens with
  | nil => intro _ i j sym qa toA qb memo hi hj; simp at hi
  | cons t ts ih =>
    intro hnd i j sym qa toA qb memo hi hj
    rw [List.map_cons] at hnd
    obtain ⟨hts, hnd2⟩ := List.nodup_cons.1 hnd
    rw [List.flatMap_cons] at hi hj
    by_cases hiL : i < (engineRecordOps dest t).length
    · rw [List.getElem?_append, if_pos hiL] at hi
      by_cases hjL : j < (engineRecordOps dest t).length
      · rw [List.getElem?_append, if_pos hjL] at hj
        exact engineRecordOps_unstake_lt_transfer dest t i j sym qa toA qb memo hi hj
      · omega
    · rw [List.getElem?_append, if_neg hiL] at hi
      by_cases hjL : j < (engineRecordOps dest t).length
      · exfalso
        rw [List.getElem?_append, if_pos hjL] at hj
        have hmemA : EngineOp.transfer sym toA qb memo ∈ engineRecordOps dest t :=
          List.mem_iff_getElem?.2 ⟨j, hj⟩
        have hsymA : sym = t.symbol := by
          have := engineRecordOps_symbol dest t _ hmemA
          simpa [engineOpSymbol] using this
        have hmemT : EngineOp.unstake sym qa ∈ ts.flatMap (engineRecordOps dest) :=
          List.mem_iff_getElem?.2 ⟨i - (engineRecordOps dest t).length, hi⟩
        obtain ⟨t2, ht2, hop2⟩ := List.mem_flatMap.1 hmemT
        have hsym2 : sym = t2.symbol := by
          have := engineRecordOps_symbol dest t2 _ hop2
          simpa [engineOpSymbol] using this
        apply hts
        rw [hsymA] at hsym2
        rw [hsym2]
        exact List.mem_map_of_mem _ ht2
      · rw [List.getElem?_append, if_neg hjL] at hj
        have h := ih hnd2 (i - (engineRecordOps dest t).length)
          (j - (engineRecordOps dest t).length) sym qa toA qb memo hi hj
        omega

/-- C2 as stated is false on the code: with two records for the same symbol
`AAA`, the first liquid-only and the second staked-only, `buildEngineQueue`
emits the Transfer (from the first record) before the Unstake (from the
second record), so an Unstake is not always placed before a Transfer of the
same symbol. -/
theorem C2_counterexample :
    ¬ (∀ (i j : ℕ) (sym : String) (qa toA qb : Option String) (memo : String),
        (buildEngineQueue [dupTokA, dupTokB] (some "tw"))[i]?
            = some (EngineOp.unstake sym qa) →
        (buildEngineQueue [dupTokA, dupTokB] (some "tw"))[j]?
            = some (EngineOp.transfer sym toA qb memo) →
        i < j) := by
  intro h
  have h1 := h 1 0 "AAA" (some "5") (some "tw") (some "10") "" (by decide) (by decide)
  omega

/-- C2 (amended): for every record list the queue is the concatenation, in
sampler record order, of the per-record contributions, each contribution
being exactly one Unstake of the raw staked amount when `stake > 0` and
`pendingUnstake == 0` followed by exactly one Transfer of the raw liquid
balance when `balance > 0`; consequently the Unstake and Transfer
subsequences each follow sampler order, and provided record symbols are
pairwise distinct (as the balances table guarantees, one record per symbol),
every Unstake precedes every Transfer of the same symbol. -/
theorem C2_token_sweep_planning (tokens : List EngineToken) (dest : Option String) :
    buildEngineQueue tokens dest = tokens.flatMap (engineRecordOps dest)
    ∧ (∀ t : EngineToken, engineRecordOps dest t
        = (if jsGtZero (jsNumber t.stake) && jsEqZero (jsNumber t.pendingUnstake) then
            [EngineOp.unstake t.symbol t.stake] else [])
          ++ (if jsGtZero (jsNumber t.balance) then
            [EngineOp.transfer t.symbol dest t.balance ""] else []))
    ∧ (buildEngineQueue tokens dest).filter isUnstakeOp
        = (tokens.filter fun t =>
            jsGtZero (jsNumber t.stake) && jsEqZero (jsNumber t.pendingUnstake)).map
            (fun t => EngineOp.unstake t.symbol t.stake)
    ∧ (buildEngineQueue tokens dest).filter isTransferOp
        = (tokens.filter fun t => jsGtZero (jsNumber t.balance)).map
            (fun t => EngineOp.transfer t.symbol dest t.balance "")
    ∧ ((tokens.map EngineToken.symbol).Nodup →
        ∀ (i j : ℕ) (sym : String) (qa toA qb : Option String) (memo : String),
          (buildEngineQueue tokens dest)[i]? = some (EngineOp.unstake sym qa) →
          (buildEngineQueue tokens dest)[j]? = some (EngineOp.transfer sym toA qb memo) →
          i < j) := by
  refine ⟨buildEngineQueue_eq_flatMap tokens dest, fun t => rfl,
    buildEngineQueue_filter_unstake tokens dest,
    buildEngineQueue_filter_transfer tokens dest, ?_⟩
  intro hnd i j sym qa toA qb memo hi hj
  rw [buildEngineQueue_eq_flatMap] at hi hj
  exact flatMap_unstake_lt_transfer dest tokens hnd i j sym qa toA qb memo hi hj

theorem C2_token_sweep_planning_witness :
    buildEngineQueue [beeToken] (some "tw") = [beeToken].flatMap (engineRecordOps (some "tw"))
    ∧ (buildEngineQueue [beeToken] (some "tw")).filter isUnstakeOp
        = [EngineOp.unstake "BEE" (some "5")]
    ∧ ∀ (i j : ℕ) (sym : String) (qa toA qb : Option String) (memo : String),
        (buildEngineQueue [beeToken] (some "tw"))[i]? = some (EngineOp.unstake sym qa) →
        (buildEngineQueue [beeToken] (some "tw"))[j]?
            = some (EngineOp.transfer sym toA qb memo) →
        i < j := by
  obtain ⟨h0, hrec, h1, h2, h3⟩ := C2_token_sweep_planning [beeToken] (some "tw")
  refine ⟨h0, ?_, h3 (by decide)⟩
  rw [h1]
  decide

/-- C9: queue construction is total over arbitrary record lists (each record
contributes independently), and for a record whose `stake`, `pendingUnstake`
or `balance` field is missing or unparseable (`Number` gives `NaN`), every
comparison gating an operation on that field is false, so the gated operation
is not emitted. -/
theorem C9_planner_totality (tokens : List EngineToken) (dest : Option String)
    (t : EngineToken) :
    buildEngineQueue tokens dest = tokens.flatMap (engineRecordOps dest)
    ∧ (jsNumber t.stake = JsNum.nan → (engineRecordOps dest t).filter isUnstakeOp = [])
    ∧ (jsNumber t.pendingUnstake = JsNum.nan →
        (engineRecordOps dest t).filter isUnstakeOp = [])
    ∧ (jsNumber t.balance = JsNum.nan → (engineRecordOps dest t).filter isTransferOp = []) := by
  refine ⟨buildEngineQueue_eq_flatMap tokens dest, ?_, ?_, ?_⟩
  · intro h; rw [engineRecordOps_filter_unstake, h]; simp [jsGtZero]
  · intro h; rw [engineRecordOps_filter_unstake, h]; simp [jsEqZero]
  · intro h; rw [engineRecordOps_filter_transfer, h]; simp [jsGtZero]

theorem C9_planner_totality_witness :
    buildEngineQueue [badToken] (some "tw") = [badToken].flatMap (engineRecordOps (some "tw"))
    ∧ (engineRecordOps (some "tw") badToken).filter isUnstakeOp = []
    ∧ (engineRecordOps (some "tw") badToken).filter isTransferOp = [] := by
  obtain ⟨h1, h2, h3, h4⟩ := C9_planner_totality [badToken] (some "tw") badToken
  exact ⟨h1, h2 (by decide), h4 (by decide)⟩

/-- C10: every queued Unstake and Transfer carries the raw string field of
some sampler record as its quantity, unchanged (no rounding or 3-decimal
formatting), whereas the native `transfer` formats its amount with
`toFixed(3)`. -/
theorem C10_quantity_passthrough (tokens : List EngineToken) (dest : Option String) :
    (∀ op ∈ buildEngineQueue tokens dest,
      (∀ sym qty, op = EngineOp.unstake sym qty →
        ∃ t ∈ tokens, t.symbol = sym ∧ qty = t.stake)
      ∧ (∀ sym toA qty memo, op = EngineOp.transfer sym toA qty memo →
          ∃ t ∈ tokens, t.symbol = sym ∧ qty = t.balance ∧ toA = dest ∧ memo = ""))
    ∧ (∀ (nm : String) (d : Option String) (amt : ℚ) (symb : String),
        (transfer nm d amt symb).amount = jsToFixed3 amt ++ " " ++ symb) := by
  constructor
  · intro op hop
    rw [buildEngineQueue_eq_flatMap] at hop
    obtain ⟨t, ht, hopt⟩ := List.mem_flatMap.1 hop
    simp only [engineRecordOps] at hopt
    rcases List.mem_append.1 hopt with h1 | h1
    · cases h2 : jsGtZero (jsNumber t.stake) && jsEqZero (jsNumber t.pendingUnstake) <;>
        rw [h2] at h1 <;> simp at h1
      subst h1
      refine ⟨?_, ?_⟩
      · intro sym qty heq
        rw [EngineOp.unstake.injEq] at heq
        exact ⟨t, ht, heq.1, heq.2.symm⟩
      · intro sym toA qty memo heq
        simp at heq
    · cases h2 : jsGtZero (jsNumber t.balance) <;> rw [h2] at h1 <;> simp at h1
      subst h1
      refine ⟨?_, ?_⟩
      · intro sym qty heq
        simp at heq
      · intro sym toA qty memo heq
        rw [EngineOp.transfer.injEq] at heq
        exact ⟨t, ht, heq.1, heq.2.2.1.symm, heq.2.1.symm, heq.2.2.2.symm⟩
  · intro nm d amt symb
    rfl

theorem C10_quantity_passthrough_witness :
    ∃ t ∈ [beeToken], t.symbol = "BEE" ∧ (some "5" : Option String) = t.stake := by
  have h := (C10_quantity_passthrough [beeToken] (some "tw")).1
    (EngineOp.unstake "BEE" (some "5")) (by decide)
  exact h.1 "BEE" (some "5") rfl

/-- One loop iteration of `retryAsync` when the attempt succeeds. -/
theorem retryGo_ok_step {α : Type} (fn : ℕ → Except JsError α) (jit : ℕ → ℕ)
    (maxAttempts a f : ℕ) (v : α) (h : fn a = Except.ok v) :
    retryGo fn jit maxAttempts a (f + 1) = ⟨RetryResult.ok v, [], [], 1⟩ := by
  simp [retryGo, h]

/-- One loop iteration of `retryAsync` when the attempt fails with a
retryable error and the attempt budget is not exhausted: the callback fires,
the capped exponential backoff sleep happens, and the loop continues. -/
theorem retryGo_retry_step {α : Type} (fn : ℕ → Except JsError α) (jit : ℕ → ℕ)
    (maxAttempts a f : ℕ) (e : JsError) (h : fn a = Except.error e)
    (hre : isRetryableError e = true) (hne : a ≠ maxAttempts) :
    retryGo fn jit maxAttempts a (f + 1) =
      ⟨(retryGo fn jit maxAttempts (a + 1) f).result,
       (min RETRY_MAX_DELAY_MS (RETRY_BASE_DELAY_MS * 2 ^ (a - 1)) + jit a)
         :: (retryGo fn jit maxAttempts (a + 1) f).delays,
       a :: (retryGo fn jit maxAttempts (a + 1) f).retryCallbacks,
       (retryGo fn jit maxAttempts (a + 1) f).attempts + 1⟩ := by
  simp [retryGo, h, hre, hne]

/-- Closed form of the retry loop over `k` retryable failures followed by a
success, starting at attempt `a` with the loop invariant
`fuel = maxAttempts + 1 - a`. -/
theorem retryGo_ok_spec {α : Type} (fn : ℕ → Except JsError α) (jit : ℕ → ℕ)
    (maxAttempts : ℕ) (v : α) :
    ∀ k a : ℕ, 1 ≤ a → a + k ≤ maxAttempts →
      (∀ i, a ≤ i → i < a + k → ∃ e, fn i = Except.error e ∧ isRetryableError e = true) →
      fn (a + k) = Except.ok v →
      retryGo fn jit maxAttempts a (maxAttempts + 1 - a) =
        ⟨RetryResult.ok v,
         (List.range' a k).map
           (fun i => min RETRY_MAX_DELAY_MS (RETRY_BASE_DELAY_MS * 2 ^ (i - 1)) + jit i),
         List.range' a k,
         k + 1⟩ := by
  intro k
  induction k with
  | zero =>
    intro a ha hk hfail hsucc
    obtain ⟨f, hf⟩ : ∃ f, maxAttempts + 1 - a = f + 1 := ⟨maxAttempts - a, by omega⟩
    rw [Nat.add_zero] at hsucc
    rw [hf, retryGo_ok_step fn jit maxAttempts a f v hsucc]
    rfl
  | succ n ihn =>
    intro a ha hk hfail hsucc
    obtain ⟨f, hf⟩ : ∃ f, maxAttempts + 1 - a = f + 1 := ⟨maxAttempts - a, by omega⟩
    obtain ⟨e, he, hre⟩ := hfail a le_rfl (by omega)
    rw [hf, retryGo_retry_step fn jit maxAttempts a f e he hre (by omega)]
    have hsucc2 : fn (a + 1 + n) = Except.ok v := by
      rw [show a + 1 + n = a + (n + 1) from by omega]
      exact hsucc
    have ih := ihn (a + 1) (by omega) (by omega)
      (fun i h1 h2 => hfail i (by omega) (by omega)) hsucc2
    rw [show maxAttempts + 1 - (a + 1) = f from by omega] at ih
    rw [ih, List.range'_succ]
    rfl

/-- C4: a wrapped call failing with retryable errors on attempts `1..k` and
succeeding on attempt `k + 1 ≤ maxAttempts` returns the success value after
exactly `k` backoff sleeps (and `k` retry callbacks, one per sleep), and the
sleep before retry attempt `i` lies within the jitter window above the capped
exponential backoff `min(maxDelay, base * 2 ^ (i - 1))`. -/
theorem C4_retry_success_backoff {α : Type} (fn : ℕ → Except JsError α) (jit : ℕ → ℕ)
    (maxAttempts k : ℕ) (v : α)
    (hk : k < maxAttempts)
    (hfail : ∀ i, 1 ≤ i → i ≤ k → ∃ e, fn i = Except.error e ∧ isRetryableError e = true)
    (hsucc : fn (k + 1) = Except.ok v)
    (hjit : ∀ i, jit i < 250) :
    (retryAsyncRun fn jit maxAttempts).result = RetryResult.ok v
    ∧ (retryAsyncRun fn jit maxAttempts).delays.length = k
    ∧ (retryAsyncRun fn jit maxAttempts).attempts = k + 1
    ∧ (retryAsyncRun fn jit maxAttempts).retryCallbacks = List.range' 1 k
    ∧ (∀ i, 1 ≤ i → i ≤ k →
        ∃ d, (retryAsyncRun fn jit maxAttempts).delays[i - 1]? = some d
          ∧ min RETRY_MAX_DELAY_MS (RETRY_BASE_DELAY_MS * 2 ^ (i - 1)) ≤ d
          ∧ d ≤ min RETRY_MAX_DELAY_MS (RETRY_BASE_DELAY_MS * 2 ^ (i - 1)) + 250) := by
  have h := retryGo_ok_spec fn jit maxAttempts v k 1 le_rfl (by omega)
    (fun i h1 h2 => hfail i h1 (by omega))
    (by rw [show 1 + k = k + 1 from by omega]; exact hsucc)
  rw [show maxAttempts + 1 - 1 = maxAttempts from by omega] at h
  have hrun : retryAsyncRun fn jit maxAttempts =
      ⟨RetryResult.ok v,
       (List.range' 1 k).map
         (fun i => min RETRY_MAX_DELAY_MS (RETRY_BASE_DELAY_MS * 2 ^ (i - 1)) + jit i),
       List.range' 1 k, k + 1⟩ := by
    rw [retryAsyncRun]
    exact h
  rw [hrun]
  refine ⟨rfl, by simp, rfl, rfl, ?_⟩
  intro i h1 h2
  refine ⟨min RETRY_MAX_DELAY_MS (RETRY_BASE_DELAY_MS * 2 ^ (i - 1)) + jit i, ?_, ?_, ?_⟩
  · rw [List.getElem?_map, List.getElem?_range' 1 1 (by omega)]
    rw [show 1 + 1 * (i - 1) = i from by omega]
    rfl
  · exact Nat.le_add_right _ _
  · have := hjit i
    omega

theorem C4_retry_success_backoff_witness :
    (retryAsyncRun fnFailTwice jitZero RETRY_MAX_ATTEMPTS).result = RetryResult.ok 42
    ∧ (retryAsyncRun fnFailTwice jitZero RETRY_MAX_ATTEMPTS).delays.length = 2
    ∧ (retryAsyncRun fnFailTwice jitZero RETRY_MAX_ATTEMPTS).attempts = 3
    ∧ (retryAsyncRun fnFailTwice jitZero RETRY_MAX_ATTEMPTS).retryCallbacks = List.range' 1 2
    ∧ (∀ i, 1 ≤ i → i ≤ 2 →
        ∃ d, (retryAsyncRun fnFailTwice jitZero RETRY_MAX_ATTEMPTS).delays[i - 1]? = some d
          ∧ min RETRY_MAX_DELAY_MS (RETRY_BASE_DELAY_MS * 2 ^ (i - 1)) ≤ d
          ∧ d ≤ min RETRY_MAX_DELAY_MS (RETRY_BASE_DELAY_MS * 2 ^ (i - 1)) + 250) :=
  C4_retry_success_backoff fnFailTwice jitZero RETRY_MAX_ATTEMPTS 2 42 (by decide)
    (fun i h1 h2 => ⟨err503, by interval_cases i <;> exact ⟨rfl, by decide⟩⟩)
    rfl (fun i => by norm_num [jitZero])

/-- The batch loop when every broadcast of the batch succeeds. -/
theorem submitBatch_ok (bc : ℕ → Except JsError Unit) :
    ∀ (l : List EngineOp) (k : ℕ), (∀ i, i < l.length → bc (k + i) = Except.ok ()) →
      submitBatch bc k l = (l.map DispatchEvent.submit, k + l.length, none) := by
  intro l
  induction l with
  | nil => intro k _; simp [submitBatch]
  | cons op rest ih =>
    intro k h
    have h0 : bc k = Except.ok () := by simpa using h 0 (by simp)
    have ih2 := ih (k + 1) (fun i hi => by
      have h3 := h (i + 1) (by simpa using Nat.succ_lt_succ hi)
      rw [show k + (i + 1) = k + 1 + i from by omega] at h3
      exact h3)
    simp [submitBatch, h0, ih2]
    omega

/-- The batch loop when broadcast `j` of the batch throws and the earlier
ones succeed: operations after position `j` are not attempted and the error
aborts the batch after `j + 1` broadcast invocations. -/
theorem submitBatch_fail (bc : ℕ → Except JsError Unit) :
    ∀ (l : List EngineOp) (k j : ℕ) (e : JsError), j < l.length →
      (∀ i, i < j → bc (k + i) = Except.ok ()) → bc (k + j) = Except.error e →
      (submitBatch bc k l).2 = (k + j + 1, some e) := by
  intro l
  induction l with
  | nil => intro k j e hj _ _; simp at hj
  | cons op rest ih =>
    intro k j e hj hok hje
    rcases j with _ | j
    · rw [Nat.add_zero] at hje
      simp [submitBatch, hje]
    · have h0 : bc k = Except.ok () := by simpa using hok 0 (by omega)
      have ih2 := ih (k + 1) j e (by simpa using hj)
        (fun i hi => by
          have h3 := hok (i + 1) (by omega)
          rw [show k + (i + 1) = k + 1 + i from by omega] at h3
          exact h3)
        (by rw [show k + 1 + j = k + (j + 1) from by omega]; exact hje)
      simp [submitBatch, h0, ih2]
      omega

/-- Unfolding of the success trace for the final batch. -/
theorem dispatchEvents_last (N fuel : ℕ) (op : EngineOp) (tl : List EngineOp)
    (h : (op :: tl).drop N = []) :
    dispatchEvents N (fuel + 1) (op :: tl)
      = ((op :: tl).take N).map DispatchEvent.submit := by
  have hre : ((op :: tl).drop N).isEmpty = true := by rw [List.isEmpty_iff]; exact h
  simp [dispatchEvents, hre]

/-- Unfolding of the success trace for a non-final batch. -/
theorem dispatchEvents_step (N fuel : ℕ) (op : EngineOp) (tl : List EngineOp)
    (h : (op :: tl).drop N ≠ []) :
    dispatchEvents N (fuel + 1) (op :: tl)
      = ((op :: tl).take N).map DispatchEvent.submit
        ++ DispatchEvent.cooldown :: dispatchEvents N fuel ((op :: tl).drop N) := by
  have hre : ((op :: tl).drop N).isEmpty = false := by rw [List.isEmpty_eq_false]; exact h
  simp [dispatchEvents, hre]

/-- Unfolding of the dispatcher loop: successful final batch. -/
theorem processGo_cons_ok_last (bc : ℕ → Except JsError Unit) (N fuel k : ℕ)
    (op : EngineOp) (tl : List EngineOp) (evs : List DispatchEvent) (k2 : ℕ)
    (hsb : submitBatch bc k ((op :: tl).take N) = (evs, k2, none))
    (hrest : (op :: tl).drop N = []) :
    processEngineQueueGo bc N (fuel + 1) k (op :: tl) = (evs, k2, none) := by
  have hre : ((op :: tl).drop N).isEmpty = true := by rw [List.isEmpty_iff]; exact hrest
  simp [processEngineQueueGo, hsb, hre]

/-- Unfolding of the dispatcher loop: successful non-final batch, followed by
a cooldown and the rest of the drain. -/
theorem processGo_cons_ok_step (bc : ℕ → Except JsError Unit) (N fuel k : ℕ)
    (op : EngineOp) (tl : List EngineOp) (evs : List DispatchEvent) (k2 : ℕ)
    (hsb : submitBatch bc k ((op :: tl).take N) = (evs, k2, none))
    (hrest : (op :: tl).drop N ≠ []) :
    processEngineQueueGo bc N (fuel + 1) k (op :: tl)
      = (evs ++ DispatchEvent.cooldown
            :: (processEngineQueueGo bc N fuel k2 ((op :: tl).drop N)).1,
         (processEngineQueueGo bc N fuel k2 ((op :: tl).drop N)).2) := by
  have hre : ((op :: tl).drop N).isEmpty = false := by rw [List.isEmpty_eq_false]; exact hrest
  simp [processEngineQueueGo, hsb, hre]

/-- Unfolding of the dispatcher loop: a batch whose submission threw. -/
theorem processGo_cons_fail (bc : ℕ → Except JsError Unit) (N fuel k : ℕ)
    (op : EngineOp) (tl : List EngineOp) (e : JsError) (k2 : ℕ)
    (hsb : (submitBatch bc k ((op :: tl).take N)).2 = (k2, some e)) :
    (processEngineQueueGo bc N (fuel + 1) k (op :: tl)).2 = (k2, some e) := by
  have h22 : (submitBatch bc k ((op :: tl).take N)).2.2 = some e := by rw [hsb]
  have h21 : (submitBatch bc k ((op :: tl).take N)).2.1 = k2 := by rw [hsb]
  simp [processEngineQueueGo, h22, h21]

/-- When every broadcast succeeds, the dispatcher drains the whole queue,
producing the `dispatchEvents` trace, one broadcast per operation and no
error. -/
theorem processGo_ok (bc : ℕ → Except JsError Unit) (N : ℕ) (hN : 0 < N)
    (hbc : ∀ i, bc i = Except.ok ()) :
    ∀ (fuel : ℕ) (q : List EngineOp) (k : ℕ), q.length ≤ fuel →
      processEngineQueueGo bc N fuel k q = (dispatchEvents N fuel q, k + q.length, none) := by
  intro fuel
  induction fuel with
  | zero =>
    intro q k hq
    have hq0 : q = [] := List.length_eq_zero.1 (by omega)
    subst hq0
    simp [processEngineQueueGo, dispatchEvents]
  | succ fuel ih =>
    intro q k hq
    cases q with
    | nil => simp [processEngineQueueGo, dispatchEvents]
    | cons op tl =>
      have hsb := submitBatch_ok bc ((op :: tl).take N) k (fun i _ => hbc (k + i))
      by_cases hrest : (op :: tl).drop N = []
      · have hsl : ((op :: tl).take N).length = (op :: tl).length := by
          rw [List.length_take]
          have := List.drop_eq_nil_iff.1 hrest
          omega
        rw [processGo_cons_ok_last bc N fuel k op tl _ _ hsb hrest,
          dispatchEvents_last N fuel op tl hrest, hsl]
      · have hLN : N < (op :: tl).length := by
          by_contra hc
          exact hrest (List.drop_eq_nil_iff.2 (by omega))
        have hsl : ((op :: tl).take N).length = N := by
          rw [List.length_take]; omega
        rw [hsl] at hsb
        have ihr := ih ((op :: tl).drop N) (k + N) (by rw [List.length_drop]; omega)
        have hcnt : k + N + ((op :: tl).drop N).length = k + (op :: tl).length := by
          rw [List.length_drop]
          omega
        rw [processGo_cons_ok_step bc N fuel k op tl _ _ hsb hrest, ihr,
          dispatchEvents_step N fuel op tl hrest, hcnt]

/-- No cooldown event arises from the submit events of a batch. -/
theorem count_cooldown_map_submit (l : List EngineOp) :
    (l.map DispatchEvent.submit).count DispatchEvent.cooldown = 0 := by
  rw [List.count_eq_zero]
  simp

/-- Cooldown count of the success trace: one per batch except the last. -/
theorem dispatchEvents_count_cooldown (N : ℕ) (hN : 0 < N) :
    ∀ (fuel : ℕ) (q : List EngineOp), q.length ≤ fuel →
      (dispatchEvents N fuel q).count DispatchEvent.cooldown = (q.length + N - 1) / N - 1 := by
  intro fuel
  induction fuel with
  | zero =>
    intro q hq
    have hq0 : q = [] := List.length_eq_zero.1 (by omega)
    subst hq0
    simp [dispatchEvents, Nat.div_eq_of_lt (show N - 1 < N from by omega)]
  | succ fuel ih =>
    intro q hq
    cases q with
    | nil =>
      simp [dispatchEvents, Nat.div_eq_of_lt (show N - 1 < N from by omega)]
    | cons op tl =>
      have hlen : (op :: tl).length = tl.length + 1 := by simp
      have hdiv : ((op :: tl).length + N - 1) / N = ((op :: tl).length - 1) / N + 1 := by
        rw [show (op :: tl).length + N - 1 = (op :: tl).length - 1 + N from by omega]
        exact Nat.add_div_right _ hN
      by_cases hrest : (op :: tl).drop N = []
      · have hLN : (op :: tl).length ≤ N := List.drop_eq_nil_iff.1 hrest
        have h1 : ((op :: tl).length - 1) / N = 0 := Nat.div_eq_of_lt (by omega)
        rw [dispatchEvents_last N fuel op tl hrest, count_cooldown_map_submit, hdiv, h1]
      · have hLN : N < (op :: tl).length := by
          by_contra hc
          exact hrest (List.drop_eq_nil_iff.2 (by omega))
        have ihr := ih ((op :: tl).drop N) (by rw [List.length_drop]; omega)
        rw [dispatchEvents_step N fuel op tl hrest, List.count_append,
          count_cooldown_map_submit, List.count_cons_self, ihr, List.length_drop]
        rw [show (op :: tl).length - N + N - 1 = (op :: tl).length - 1 from by omega, hdiv]
        have hone : 1 ≤ ((op :: tl).length - 1) / N :=
          (Nat.one_le_div_iff hN).2 (by omega)
        omega

/-- The success trace of a nonempty queue ends with a submit event. -/
theorem dispatchEvents_getLast (N : ℕ) (hN : 0 < N) :
    ∀ (fuel : ℕ) (q : List EngineOp), q.length ≤ fuel → q ≠ [] →
      ∃ op, (dispatchEvents N fuel q).getLast? = some (DispatchEvent.submit op) := by
  have hmap : ∀ l : List EngineOp, l ≠ [] →
      ∃ op, (l.map DispatchEvent.submit).getLast? = some (DispatchEvent.submit op) := by
    intro l
    induction l with
    | nil => intro h; exact absurd rfl h
    | cons a t ih =>
      intro _
      cases t with
      | nil => exact ⟨a, rfl⟩
      | cons b t2 =>
        obtain ⟨op, hop⟩ := ih (by simp)
        refine ⟨op, ?_⟩
        rw [List.map_cons, List.map_cons, List.getLast?_cons_cons]
        rw [List.map_cons] at hop
        exact hop
  intro fuel
  induction fuel with
  | zero =>
    intro q hq hne
    exact absurd (List.length_eq_zero.1 (by omega)) hne
  | succ fuel ih =>
    intro q hq hne
    cases q with
    | nil => exact absurd rfl hne
    | cons op tl =>
      by_cases hrest : (op :: tl).drop N = []
      · obtain ⟨op2, hop2⟩ := hmap ((op :: tl).take N)
          (by
            intro hc
            have := congrArg List.length hc
            simp [List.length_take] at this
            omega)
        refine ⟨op2, ?_⟩
        rw [dispatchEvents_last N fuel op tl hrest]
        exact hop2
      · obtain ⟨op2, hop2⟩ := ih ((op :: tl).drop N)
          (by rw [List.length_drop]; omega) hrest
        refine ⟨op2, ?_⟩
        rw [dispatchEvents_step N fuel op tl hrest, List.getLast?_append,
          show DispatchEvent.cooldown :: dispatchEvents N fuel ((op :: tl).drop N)
            = [DispatchEvent.cooldown] ++ dispatchEvents N fuel ((op :: tl).drop N) from rfl,
          List.getLast?_append, hop2]
        rfl

/-- Any all-submit window of the success trace spans at most `N` events. -/
theorem dispatchEvents_window (N : ℕ) (hN : 0 < N) :
    ∀ (fuel : ℕ) (q : List EngineOp) (i j : ℕ),
      (∀ m, i ≤ m → m ≤ j →
        ∃ op, (dispatchEvents N fuel q)[m]? = some (DispatchEvent.submit op)) →
      j + 1 - i ≤ N := by
  intro fuel
  induction fuel with
  | zero =>
    intro q i j hw
    by_cases hij : i ≤ j
    · obtain ⟨op, hop⟩ := hw j hij le_rfl
      simp only [dispatchEvents] at hop
      simp at hop
    · omega
  | succ fuel ih =>
    intro q i j hw
    by_cases hij : i ≤ j
    swap
    · omega
    cases q with
    | nil =>
      obtain ⟨op, hop⟩ := hw j hij le_rfl
      simp only [dispatchEvents] at hop
      simp at hop
    | cons op0 tl =>
      by_cases hrest : (op0 :: tl).drop N = []
      · obtain ⟨op, hop⟩ := hw j hij le_rfl
        rw [dispatchEvents_last N fuel op0 tl hrest] at hop
        have hjlen : j < (((op0 :: tl).take N).map DispatchEvent.submit).length := by
          by_contra hc
          push_neg at hc
          rw [List.getElem?_eq_none hc] at hop
          exact Option.noConfusion hop
        rw [List.length_map, List.length_take] at hjlen
        omega
      · have hLN : N < (op0 :: tl).length := by
          by_contra hc
          exact hrest (List.drop_eq_nil_iff.2 (by omega))
        have hA : (((op0 :: tl).take N).map DispatchEvent.submit).length = N := by
          rw [List.length_map, List.length_take]
          omega
        have htr := dispatchEvents_step N fuel op0 tl hrest
        by_cases hjN : j < N
        · omega
        · by_cases hiN : i ≤ N
          · exfalso
            obtain ⟨op, hop⟩ := hw N hiN (by omega)
            rw [htr, List.getElem?_append_right (by omega), hA, Nat.sub_self] at hop
            simp at hop
          · push_neg at hiN
            have hw2 : ∀ m, i - N - 1 ≤ m → m ≤ j - N - 1 →
                ∃ op, (dispatchEvents N fuel ((op0 :: tl).drop N))[m]?
                  = some (DispatchEvent.submit op) := by
              intro m hm1 hm2
              obtain ⟨op, hop⟩ := hw (m + N + 1) (by omega) (by omega)
              refine ⟨op, ?_⟩
              rw [htr, List.getElem?_append_right (by omega), hA,
                show m + N + 1 - N = m + 1 from by omega, List.getElem?_cons_succ] at hop
              exact hop
            have := ih ((op0 :: tl).drop N) (i - N - 1) (j - N - 1) hw2
            omega

/-- The submits of the success trace are exactly the queue, in order. -/
theorem dispatchEvents_filterMap (N : ℕ) (hN : 0 < N) :
    ∀ (fuel : ℕ) (q : List EngineOp), q.length ≤ fuel →
      (dispatchEvents N fuel q).filterMap submittedOp = q := by
  have hmapA : ∀ l : List EngineOp,
      (l.map DispatchEvent.submit).filterMap submittedOp = l := by
    intro l
    rw [List.filterMap_map]
    have hcomp : submittedOp ∘ DispatchEvent.submit = some := by
      funext x
      rfl
    rw [hcomp, List.filterMap_some]
  intro fuel
  induction fuel with
  | zero =>
    intro q hq
    have hq0 : q = [] := List.length_eq_zero.1 (by omega)
    subst hq0
    simp [dispatchEvents]
  | succ fuel ih =>
    intro q hq
    cases q with
    | nil => simp [dispatchEvents]
    | cons op tl =>
      by_cases hrest : (op :: tl).drop N = []
      · have hLN : (op :: tl).length ≤ N := List.drop_eq_nil_iff.1 hrest
        rw [dispatchEvents_last N fuel op tl hrest, hmapA]
        exact List.take_of_length_le hLN
      · have hLN : N < (op :: tl).length := by
          by_contra hc
          exact hrest (List.drop_eq_nil_iff.2 (by omega))
        have ihr := ih ((op :: tl).drop N) (by rw [List.length_drop]; omega)
        rw [dispatchEvents_step N fuel op tl hrest, List.filterMap_append, hmapA,
          show List.filterMap submittedOp
              (DispatchEvent.cooldown :: dispatchEvents N fuel ((op :: tl).drop N))
            = List.filterMap submittedOp (dispatchEvents N fuel ((op :: tl).drop N))
            from rfl,
          ihr, List.take_append_drop]

/-- C3: with batch size `N > 0` and all broadcasts succeeding, the dispatcher
submits exactly the queued operations in order, performs
`ceil(L / N) - 1` cooldown sleeps (`0` when `L ≤ N`, via truncated natural
subtraction), never ends the trace with a cooldown, and never has more than
`N` consecutive submit events between cooldowns. -/
theorem C3_batch_dispatch_pacing (bc : ℕ → Except JsError Unit) (N : ℕ) (q : List EngineOp)
    (hN : 0 < N) (hbc : ∀ i, bc i = Except.ok ()) :
    (processEngineQueueRunWith bc N q).1.filterMap submittedOp = q
    ∧ (processEngineQueueRunWith bc N q).1.count DispatchEvent.cooldown
        = (q.length + N - 1) / N - 1
    ∧ (processEngineQueueRunWith bc N q).1.getLast? ≠ some DispatchEvent.cooldown
    ∧ (∀ i j : ℕ,
        (∀ m, i ≤ m → m ≤ j →
          ∃ op, (processEngineQueueRunWith bc N q).1[m]? = some (DispatchEvent.submit op)) →
        j + 1 - i ≤ N) := by
  have hrun : (processEngineQueueRunWith bc N q).1 = dispatchEvents N q.length q := by
    rw [processEngineQueueRunWith, processGo_ok bc N hN hbc q.length q 0 le_rfl]
  rw [hrun]
  refine ⟨dispatchEvents_filterMap N hN q.length q le_rfl,
    dispatchEvents_count_cooldown N hN q.length q le_rfl, ?_,
    fun i j hw => dispatchEvents_window N hN q.length q i j hw⟩
  by_cases hq : q = []
  · subst hq
    simp [dispatchEvents]
  · obtain ⟨op, hop⟩ := dispatchEvents_getLast N hN q.length q le_rfl hq
    rw [hop]
    simp

theorem C3_batch_dispatch_pacing_witness :
    (processEngineQueueRunWith bcAllOk CUSTOM_JSON_LIMIT opsDozen).1.filterMap submittedOp
        = opsDozen
    ∧ (processEngineQueueRunWith bcAllOk CUSTOM_JSON_LIMIT opsDozen).1.count
        DispatchEvent.cooldown
        = (opsDozen.length + CUSTOM_JSON_LIMIT - 1) / CUSTOM_JSON_LIMIT - 1
    ∧ (processEngineQueueRunWith bcAllOk CUSTOM_JSON_LIMIT opsDozen).1.getLast?
        ≠ some DispatchEvent.cooldown
    ∧ (∀ i j : ℕ,
        (∀ m, i ≤ m → m ≤ j →
          ∃ op, (processEngineQueueRunWith bcAllOk CUSTOM_JSON_LIMIT opsDozen).1[m]?
            = some (DispatchEvent.submit op)) →
        j + 1 - i ≤ CUSTOM_JSON_LIMIT) :=
  C3_batch_dispatch_pacing bcAllOk CUSTOM_JSON_LIMIT opsDozen (by decide) (fun i => rfl)

/-- When the `j`-th broadcast of the dispatch throws and all earlier ones
succeed, the dispatcher stops after exactly `j + 1` broadcast invocations and
surfaces that error unchanged. -/
theorem processGo_fail (bc : ℕ → Except JsError Unit) (N : ℕ) (hN : 0 < N) :
    ∀ (fuel : ℕ) (q : List EngineOp) (k j : ℕ) (e : JsError), q.length ≤ fuel →
      j < q.length → (∀ i, i < j → bc (k + i) = Except.ok ()) →
      bc (k + j) = Except.error e →
      (processEngineQueueGo bc N fuel k q).2 = (k + j + 1, some e) := by
  intro fuel
  induction fuel with
  | zero => intro q k j e hq hj _ _; omega
  | succ fuel ih =>
    intro q k j e hq hj hok hje
    cases q with
    | nil => simp at hj
    | cons op tl =>
      by_cases hjslice : j < ((op :: tl).take N).length
      · exact processGo_cons_fail bc N fuel k op tl e (k + j + 1)
          (submitBatch_fail bc ((op :: tl).take N) k j e hjslice hok hje)
      · push_neg at hjslice
        have hslice : ((op :: tl).take N).length = N := by
          rw [List.length_take] at hjslice ⊢
          omega
        rw [hslice] at hjslice
        have hsb := submitBatch_ok bc ((op :: tl).take N) k
          (fun i hi => hok i (by rw [hslice] at hi; omega))
        rw [hslice] at hsb
        have hLN : N < (op :: tl).length := by omega
        have hrest : (op :: tl).drop N ≠ [] := by
          intro hc
          have := List.drop_eq_nil_iff.1 hc
          omega
        have ihr := ih ((op :: tl).drop N) (k + N) (j - N) e
          (by rw [List.length_drop]; omega)
          (by rw [List.length_drop]; omega)
          (fun i hi => by
            have h3 := hok (N + i) (by omega)
            rw [show k + (N + i) = k + N + i from by omega] at h3
            exact h3)
          (by
            have h3 := hje
            rw [show k + j = k + N + (j - N) from by omega] at h3
            exact h3)
        rw [processGo_cons_ok_step bc N fuel k op tl _ _ hsb hrest]
        show (processEngineQueueGo bc N fuel (k + N) ((op :: tl).drop N)).2
          = (k + j + 1, some e)
        rw [ihr, show k + N + (j - N) + 1 = k + j + 1 from by omega]

/-- C5 as stated is false on the code: `processEngineQueue` submits each
operation through `engineBroadcast` directly, with no `retryAsync` wrapper.
With a single queued operation whose first broadcast throws a retryable
HTTP 503 error, the dispatcher surfaces the error after exactly one
broadcast invocation, although the attempt budget would have allowed
retries and the Retry Executor applied to the same outcome stream succeeds. -/
theorem C5_counterexample :
    (processEngineQueueRun bcFailFirst [EngineOp.unstake "X" none]).2 = (1, some err503)
    ∧ isRetryableError err503 = true
    ∧ 1 < RETRY_MAX_ATTEMPTS
    ∧ (retryAsyncRun (fun attempt => bcFailFirst (attempt - 1)) jitZero RETRY_MAX_ATTEMPTS).result
        = RetryResult.ok () := by
  exact ⟨by decide, by decide, by decide, by decide⟩

/-- C5 (amended): every queued token operation is submitted as a single
signed broadcast directly, not through the Retry Executor: if the `j`-th
broadcast of a dispatch fails (retryable or not) and the earlier ones
succeed, the error is surfaced to the cycle after exactly `j + 1` broadcast
invocations, with no retry of the failed broadcast. -/
theorem C5_direct_broadcast (q : List EngineOp) (bc : ℕ → Except JsError Unit)
    (j : ℕ) (e : JsError) (hj : j < q.length)
    (hpre : ∀ i, i < j → bc i = Except.ok ())
    (hje : bc j = Except.error e) :
    (processEngineQueueRun bc q).2 = (j + 1, some e) := by
  have h := processGo_fail bc CUSTOM_JSON_LIMIT (by decide) q.length q 0 j e le_rfl hj
    (fun i hi => by simpa using hpre i hi) (by simpa using hje)
  simpa [processEngineQueueRun, processEngineQueueRunWith] using h

theorem C5_direct_broadcast_witness :
    (processEngineQueueRun bcFailSecond
        [EngineOp.unstake "X" none, EngineOp.unstake "Y" none]).2 = (2, some err503) :=
  C5_direct_broadcast [EngineOp.unstake "X" none, EngineOp.unstake "Y" none]
    bcFailSecond 1 err503 (by decide)
    (fun i hi => by interval_cases i; rfl) rfl

end AutoTransfer
